import Mathlib

/-!
Verification development for the reliable-topic layer of the
hazelcast-nodejs-client repository.

The repository sources under scrutiny are:
  * `src/proxy/topic/TopicProxy.ts` — the plain topic proxy (publish,
    publishAll, addListener, removeListener, and the unsupported
    addMessageListener / removeMessageListener methods);
  * the reliable-topic integration test
    `test/integration/backward_compatible/parallel/topic/ReliableTopicTest.js`.

The reliable-topic core itself (the ring-buffer log collaborator, the
overload-policy enforcer, and the per-listener runner state machine) is not
part of the source tree; only its tests and the specification document
describe it.  Those components are therefore modelled from the spec, and each
such definition carries a doc comment starting with `Modelled from the spec:`.
-/

namespace ReliableTopic

/-- Modelled from the spec: the Topic Overload Policy, "one of
{DISCARD_OLDEST, DISCARD_NEWEST, BLOCK, ERROR}", fixed per topic name.
(The enum lives in `TopicOverloadPolicy.ts`, which is not under `src/`.) -/
inductive TopicOverloadPolicy where
  | DISCARD_OLDEST
  | DISCARD_NEWEST
  | BLOCK
  | ERROR
deriving DecidableEq

/-- Modelled from the spec: the error kinds of §7 (InvalidArgument on an
absent message, Overload under the ERROR policy "carrying the number of items
that could not be accommodated", Timeout when the BLOCK policy's wait budget
is exhausted). -/
inductive TopicError where
  | invalidArgument
  | overload (failedCount : Nat)
  | timeoutExpired
deriving DecidableEq

/-- Modelled from the spec: the Log Collaborator ("ring buffer") — a
capacity- and TTL-bounded, sequence-addressed append log.  `head` is the head
sequence; the entry at sequence `head + i` is `items[i]`, stored together
with its absolute expiry time (publish time + TTL) so that retention can be
expressed.  (The ring-buffer proxy is not under `src/`.) -/
structure Ringbuffer (α : Type) where
  capacity : Nat
  head : Nat
  items : List (Nat × α)
deriving DecidableEq

/-- Number of stored entries (`size()` of the log collaborator). -/
def Ringbuffer.size (rb : Ringbuffer α) : Nat := rb.items.length

/-- The payloads currently stored, oldest first. -/
def Ringbuffer.payloads (rb : Ringbuffer α) : List α := rb.items.map Prod.snd

/-- `tailSequence()`: the sequence of the newest stored entry. -/
def Ringbuffer.tailSequence (rb : Ringbuffer α) : Nat :=
  rb.head + rb.items.length - 1

/-- The sequence a brand-new listener starts at: `tailSequence() + 1`. -/
def Ringbuffer.nextSequence (rb : Ringbuffer α) : Nat :=
  rb.head + rb.items.length

/-- `readOne(sequence)`: the entry stored at a sequence, if retained. -/
def Ringbuffer.readOne (rb : Ringbuffer α) (seq : Nat) : Option (Nat × α) :=
  if seq < rb.head then none else rb.items[seq - rb.head]?

/-- Whether the log can accept `n` more items without evicting entries still
inside its retention window. -/
def Ringbuffer.hasSpace (rb : Ringbuffer α) (n : Nat) : Bool :=
  decide (rb.items.length + n ≤ rb.capacity)

/-- Plain append of a batch (no eviction): each item is stamped with expiry
`now + ttl` and appended in order after the existing entries. -/
def Ringbuffer.appendAllNow (rb : Ringbuffer α) (now ttl : Nat) (batch : List α) :
    Ringbuffer α :=
  ⟨rb.capacity, rb.head, rb.items ++ batch.map (fun a => (now + ttl, a))⟩

/-- Evict the `n` oldest entries (advancing the head sequence by `n`). -/
def Ringbuffer.evictOldest (rb : Ringbuffer α) (n : Nat) : Ringbuffer α :=
  ⟨rb.capacity, rb.head + n, rb.items.drop n⟩

/-- Modelled from the spec: natural TTL expiry of the oldest entries — every
entry whose expiry time has been reached is evicted from the head of the
log. -/
def Ringbuffer.evictExpired (now : Nat) (rb : Ringbuffer α) : Ringbuffer α :=
  let rem := rb.items.dropWhile (fun p => p.1 ≤ now)
  ⟨rb.capacity, rb.head + (rb.items.length - rem.length), rem⟩

/-- Modelled from the spec: the BLOCK overload policy — "append is retried on
a scheduled delay until space frees via natural TTL expiry of the oldest
entry, or until an internal wait budget is exhausted, in which case it fails
with a Timeout error".  `fuel` is the wait budget (number of scheduled
retries), `delay` the retry delay; `none` is the Timeout outcome.  On success
the result carries the resolution time and the new log. -/
def blockAppendAll (ttl delay : Nat) (batch : List α) :
    Nat → Nat → Ringbuffer α → Option (Nat × Ringbuffer α)
  | 0, _, _ => none
  | fuel + 1, now, rb =>
    let rb2 := rb.evictExpired now
    if rb2.items.length + batch.length ≤ rb2.capacity then
      some (now, rb2.appendAllNow now ttl batch)
    else
      blockAppendAll ttl delay batch fuel (now + delay) rb2

/-- Modelled from the spec: the Overload Policy Enforcer (§4.2), "applied
uniformly whether publishing one item or a batch"; the entire batch receives
a single accept/discard/block/error decision.  The result is the publish
outcome, the time at which the call resolves, and the log afterwards. -/
def publishAllEnforced (policy : TopicOverloadPolicy) (ttl delay fuel now : Nat)
    (rb : Ringbuffer α) (batch : List α) :
    Except TopicError Unit × Nat × Ringbuffer α :=
  match policy with
  | .ERROR =>
    let rb2 := rb.evictExpired now
    if rb2.hasSpace batch.length then (.ok (), now, rb2.appendAllNow now ttl batch)
    else (.error (.overload batch.length), now, rb2)
  | .DISCARD_NEWEST =>
    let rb2 := rb.evictExpired now
    if rb2.hasSpace batch.length then (.ok (), now, rb2.appendAllNow now ttl batch)
    else (.ok (), now, rb2)
  | .DISCARD_OLDEST =>
    let rb2 := rb.evictExpired now
    if rb2.hasSpace batch.length then (.ok (), now, rb2.appendAllNow now ttl batch)
    else
      (.ok (), now,
        (rb2.evictOldest (rb2.items.length + batch.length - rb2.capacity)).appendAllNow
          now ttl batch)
  | .BLOCK =>
    match blockAppendAll ttl delay batch fuel now rb with
    | some (t, rb2) => (.ok (), t, rb2)
    | none => (.error .timeoutExpired, now + fuel * delay, rb)

/-- Modelled from the spec: `publish(message)` — a single-item append under
the configured overload policy. -/
def publishEnforced (policy : TopicOverloadPolicy) (ttl delay fuel now : Nat)
    (rb : Ringbuffer α) (x : α) : Except TopicError Unit × Nat × Ringbuffer α :=
  publishAllEnforced policy ttl delay fuel now rb [x]

/-- If no stored entry has expired yet, TTL eviction leaves the log alone. -/
theorem evictExpired_of_fresh (now : Nat) (rb : Ringbuffer α)
    (h : ∀ p ∈ rb.items, now < p.1) : rb.evictExpired now = rb := by
  rcases rb with ⟨cap, hd, items⟩
  cases items with
  | nil => simp [Ringbuffer.evictExpired]
  | cons a t =>
    have ha : ¬ (a.1 ≤ now) := by
      have := h a (by simp)
      omega
    simp [Ringbuffer.evictExpired, List.dropWhile_cons, ha]

/-- The concrete batches of the overload-policy test scenarios:
`batch1 = [1..10]`. -/
def batchOne : List Nat := [1, 2, 3, 4, 5, 6, 7, 8, 9, 10]

/-- `batch2 = [11..20]`. -/
def batchTwo : List Nat := [11, 12, 13, 14, 15, 16, 17, 18, 19, 20]

/-- A capacity-10 log already holding exactly `batch1` (published at time 0
with TTL 1000). -/
def logFull : Ringbuffer Nat := ⟨10, 0, batchOne.map (fun a => (1000, a))⟩

theorem evictExpired_items (now : Nat) (rb : Ringbuffer α) :
    (rb.evictExpired now).items = rb.items.dropWhile (fun p => p.1 ≤ now) := rfl

theorem evictExpired_capacity (now : Nat) (rb : Ringbuffer α) :
    (rb.evictExpired now).capacity = rb.capacity := rfl

theorem appendAllNow_payloads (now ttl : Nat) (rb : Ringbuffer α) (batch : List α) :
    (rb.appendAllNow now ttl batch).payloads = rb.payloads ++ batch := by
  simp [Ringbuffer.appendAllNow, Ringbuffer.payloads]

theorem hasSpace_true_iff (rb : Ringbuffer α) (n : Nat) :
    rb.hasSpace n = true ↔ rb.items.length + n ≤ rb.capacity := by
  simp [Ringbuffer.hasSpace]

theorem hasSpace_false_iff (rb : Ringbuffer α) (n : Nat) :
    rb.hasSpace n = false ↔ rb.capacity < rb.items.length + n := by
  simp [Ringbuffer.hasSpace]

theorem exists_dropWhile_eq_drop (f : β → Bool) :
    ∀ xs : List β, ∃ k, xs.dropWhile f = xs.drop k := by
  intro xs
  induction xs with
  | nil => exact ⟨0, rfl⟩
  | cons a t ih =>
    by_cases ha : f a
    · obtain ⟨k, hk⟩ := ih
      exact ⟨k + 1, by simp [List.dropWhile_cons, ha, hk]⟩
    · exact ⟨0, by simp [List.dropWhile_cons, ha]⟩

theorem evictExpired_payloads_drop (now : Nat) (rb : Ringbuffer α) :
    ∃ k, (rb.evictExpired now).payloads = rb.payloads.drop k := by
  obtain ⟨k, hk⟩ := exists_dropWhile_eq_drop (fun p => p.1 ≤ now) rb.items
  exact ⟨k, by simp [Ringbuffer.payloads, evictExpired_items, hk, List.map_drop]⟩

/-- If TTL eviction at time `now` strictly shrank the log, then its oldest
entry had expired, so `now` is at or past every lower bound on the stored
expiry times. -/
theorem expiry_bound_of_evict_shrinks (now E : Nat) (rb : Ringbuffer α)
    (hexp : ∀ p ∈ rb.items, E ≤ p.1)
    (hlt : (rb.evictExpired now).items.length < rb.items.length) : E ≤ now := by
  rcases hi : rb.items with _ | ⟨a, t⟩
  · rw [evictExpired_items, hi] at hlt
    simp at hlt
  · by_cases ha : a.1 ≤ now
    · exact le_trans (hexp a (by rw [hi]; exact List.mem_cons_self a t)) ha
    · exfalso
      rw [evictExpired_items, hi, List.dropWhile_cons, if_neg (by simpa using ha)] at hlt
      simp at hlt

/-- On success, a BLOCK-policy append yields the old log minus some evicted
prefix, followed by the whole batch in order: never a partial append. -/
theorem blockAppendAll_payloads_suffix (ttl delay : Nat) (batch : List α)
    (t : Nat) (rb2 : Ringbuffer α) :
    ∀ (fuel now : Nat) (rb : Ringbuffer α),
      blockAppendAll ttl delay batch fuel now rb = some (t, rb2) →
      ∃ k, rb2.payloads = rb.payloads.drop k ++ batch := by
  intro fuel
  induction fuel with
  | zero => intro now rb h; simp [blockAppendAll] at h
  | succ fuel ih =>
    intro now rb h
    simp only [blockAppendAll] at h
    obtain ⟨k1, hk1⟩ := evictExpired_payloads_drop now rb
    by_cases hsp :
        (rb.evictExpired now).items.length + batch.length ≤ (rb.evictExpired now).capacity
    · rw [if_pos hsp] at h
      have hrb2 : (rb.evictExpired now).appendAllNow now ttl batch = rb2 :=
        congrArg Prod.snd (Option.some.inj h)
      exact ⟨k1, by rw [← hrb2, appendAllNow_payloads, hk1]⟩
    · rw [if_neg hsp] at h
      obtain ⟨k2, hk2⟩ := ih (now + delay) (rb.evictExpired now) h
      exact ⟨k1 + k2, by rw [hk2, hk1, List.drop_drop]⟩

/-- A successful BLOCK-policy append resolves no sooner than the expiry of
the oldest evicted entry, and when the batch fills the whole capacity the
log afterwards holds exactly the batch. -/
theorem blockAppendAll_some_expiry (ttl delay E : Nat) (batch : List α)
    (t : Nat) (rb2 : Ringbuffer α) :
    ∀ (fuel now : Nat) (rb : Ringbuffer α),
      rb.capacity < rb.items.length + batch.length →
      (∀ p ∈ rb.items, E ≤ p.1) →
      blockAppendAll ttl delay batch fuel now rb = some (t, rb2) →
      E ≤ t ∧ (batch.length = rb.capacity → rb2.payloads = batch) := by
  intro fuel
  induction fuel with
  | zero => intro now rb _ _ h; simp [blockAppendAll] at h
  | succ fuel ih =>
    intro now rb hfull hexp h
    simp only [blockAppendAll] at h
    have hcapeq : (rb.evictExpired now).capacity = rb.capacity := evictExpired_capacity now rb
    by_cases hsp :
        (rb.evictExpired now).items.length + batch.length ≤ (rb.evictExpired now).capacity
    · rw [if_pos hsp] at h
      have hpair := Option.some.inj h
      have ht : t = now := (congrArg Prod.fst hpair).symm
      have hrb2 : (rb.evictExpired now).appendAllNow now ttl batch = rb2 :=
        congrArg Prod.snd hpair
      have hshrink : (rb.evictExpired now).items.length < rb.items.length := by omega
      refine ⟨ht ▸ expiry_bound_of_evict_shrinks now E rb hexp hshrink, ?_⟩
      intro hcap
      have hrem : (rb.evictExpired now).items.length = 0 := by omega
      have hremnil : (rb.evictExpired now).items = [] := List.length_eq_zero.mp hrem
      rw [← hrb2, appendAllNow_payloads]
      simp [Ringbuffer.payloads, hremnil]
    · rw [if_neg hsp] at h
      refine ih (now + delay) (rb.evictExpired now) (by omega) ?_ h
      intro p hp
      exact hexp p (List.dropWhile_subset _ (by rw [evictExpired_items] at hp; exact hp))

/-- While no stored entry has expired at any probe time within the wait
budget, a BLOCK-policy append on a full log exhausts its budget and reports
Timeout. -/
theorem blockAppendAll_none_of_fresh (ttl delay : Nat) (batch : List α) :
    ∀ (fuel now : Nat) (rb : Ringbuffer α),
      rb.capacity < rb.items.length + batch.length →
      (∀ p ∈ rb.items, now + fuel * delay < p.1) →
      blockAppendAll ttl delay batch fuel now rb = none := by
  intro fuel
  induction fuel with
  | zero => intro now rb _ _; rfl
  | succ fuel ih =>
    intro now rb hfull hexp
    have hfresh : ∀ p ∈ rb.items, now < p.1 := by
      intro p hp
      have := hexp p hp
      omega
    simp only [blockAppendAll, evictExpired_of_fresh now rb hfresh]
    rw [if_neg (by omega)]
    refine ih (now + delay) rb hfull ?_
    intro p hp
    have := hexp p hp
    rw [Nat.succ_mul] at this
    omega

/-- C7.  Under the BLOCK overload policy on a log with no free capacity, the
append is retried on a scheduled delay: if it resolves successfully it does
so no sooner than the earliest stored expiry (one minimum entry TTL), and
when the batch fills the whole capacity the log afterwards holds exactly the
new batch; while no entry expires within the wait budget, the budget is
exhausted and the publish fails with a Timeout error, leaving the log
unchanged — it never blocks indefinitely. -/
theorem blockPolicy_waits_or_times_out (ttl delay fuel now E : Nat)
    (rb : Ringbuffer α) (batch : List α)
    (hfull : rb.capacity < rb.items.length + batch.length) :
    (∀ t rb2, (∀ p ∈ rb.items, E ≤ p.1) →
        publishAllEnforced .BLOCK ttl delay fuel now rb batch = (.ok (), t, rb2) →
        E ≤ t ∧ (batch.length = rb.capacity → rb2.payloads = batch))
    ∧ ((∀ p ∈ rb.items, now + fuel * delay < p.1) →
        publishAllEnforced .BLOCK ttl delay fuel now rb batch
          = (.error .timeoutExpired, now + fuel * delay, rb)) := by
  constructor
  · intro t rb2 hexp h
    rcases hb : blockAppendAll ttl delay batch fuel now rb with - | ⟨t2, rb3⟩
    · simp [publishAllEnforced, hb] at h
    · have hmain :=
        blockAppendAll_some_expiry ttl delay E batch t2 rb3 fuel now rb hfull hexp hb
      simp only [publishAllEnforced, hb] at h
      simp only [Prod.mk.injEq] at h
      obtain ⟨-, ht, hrb⟩ := h
      exact ht ▸ hrb ▸ hmain
  · intro hexp
    simp [publishAllEnforced,
      blockAppendAll_none_of_fresh ttl delay batch fuel now rb hfull hexp]

/-- A capacity-10 log already holding exactly `batch1`, every entry expiring
at time 2000 (the log's minimum entry TTL). -/
def logFullTwoSec : Ringbuffer Nat := ⟨10, 0, batchOne.map (fun a => (2000, a))⟩

/-- C7 witness: with capacity 10 and entry TTL 2000ms, publishing `batch2`
after a full `batch1` resolves at time 2000 ≥ the TTL with the log holding
exactly `batch2`; with a wait budget of only 3 retries of 500ms the publish
instead fails with Timeout at time 1500, leaving the log unchanged. -/
theorem blockPolicy_waits_or_times_out_witness :
    (2000 ≤ 2000
      ∧ (⟨10, 10, batchTwo.map (fun a => (4000, a))⟩ : Ringbuffer Nat).payloads = batchTwo)
    ∧ publishAllEnforced .BLOCK 2000 500 3 0 logFullTwoSec batchTwo
        = (.error .timeoutExpired, 1500, logFullTwoSec) := by
  constructor
  · have h := (blockPolicy_waits_or_times_out 2000 500 10 0 2000 logFullTwoSec batchTwo
      (by decide)).1 2000 ⟨10, 10, batchTwo.map (fun a => (4000, a))⟩ (by decide) (by rfl)
    exact ⟨h.1, h.2 rfl⟩
  · have h := (blockPolicy_waits_or_times_out 2000 500 3 0 2000 logFullTwoSec batchTwo
      (by decide)).2 (by decide)
    simpa using h

/-- C3.  The entire batch of `publishAll` is one indivisible unit under
every overload policy: the log afterwards is the old contents minus some
evicted oldest prefix, either with nothing appended or with the whole batch
appended in order — never a partial append of some items. -/
theorem publishAll_batch_indivisible (policy : TopicOverloadPolicy)
    (ttl delay fuel now : Nat) (rb : Ringbuffer α) (batch : List α) :
    ∃ k, (publishAllEnforced policy ttl delay fuel now rb batch).2.2.payloads
            = rb.payloads.drop k
      ∨ (publishAllEnforced policy ttl delay fuel now rb batch).2.2.payloads
            = rb.payloads.drop k ++ batch := by
  obtain ⟨k1, hk1⟩ := evictExpired_payloads_drop now rb
  cases policy with
  | ERROR =>
    by_cases hsp : (rb.evictExpired now).hasSpace batch.length = true
    · refine ⟨k1, .inr ?_⟩
      simp only [publishAllEnforced, hsp, if_true]
      rw [appendAllNow_payloads, hk1]
    · rw [Bool.not_eq_true] at hsp
      refine ⟨k1, .inl ?_⟩
      simp only [publishAllEnforced, hsp, Bool.false_eq_true, if_false]
      exact hk1
  | DISCARD_NEWEST =>
    by_cases hsp : (rb.evictExpired now).hasSpace batch.length = true
    · refine ⟨k1, .inr ?_⟩
      simp only [publishAllEnforced, hsp, if_true]
      rw [appendAllNow_payloads, hk1]
    · rw [Bool.not_eq_true] at hsp
      refine ⟨k1, .inl ?_⟩
      simp only [publishAllEnforced, hsp, Bool.false_eq_true, if_false]
      exact hk1
  | DISCARD_OLDEST =>
    by_cases hsp : (rb.evictExpired now).hasSpace batch.length = true
    · refine ⟨k1, .inr ?_⟩
      simp only [publishAllEnforced, hsp, if_true]
      rw [appendAllNow_payloads, hk1]
    · rw [Bool.not_eq_true] at hsp
      refine ⟨k1 + ((rb.evictExpired now).items.length + batch.length
          - (rb.evictExpired now).capacity), .inr ?_⟩
      simp only [publishAllEnforced, hsp, Bool.false_eq_true, if_false]
      rw [appendAllNow_payloads]
      simp only [Ringbuffer.evictOldest, Ringbuffer.payloads, List.map_drop]
      rw [show ((rb.evictExpired now).items.map Prod.snd)
            = (rb.evictExpired now).payloads from rfl]
      rw [hk1, List.drop_drop, Nat.add_comm]
      rfl
  | BLOCK =>
    rcases hb : blockAppendAll ttl delay batch fuel now rb with - | ⟨t, rb2⟩
    · refine ⟨0, .inl ?_⟩
      simp [publishAllEnforced, hb]
    · obtain ⟨k, hk⟩ := blockAppendAll_payloads_suffix ttl delay batch t rb2 fuel now rb hb
      refine ⟨k, .inr ?_⟩
      simp [publishAllEnforced, hb, hk]

/-- C4.  Under the ERROR overload policy, an append issued when the log has
no free capacity fails with an Overload error carrying the number of items
that could not be accommodated, resolves immediately, and leaves the log's
stored contents unchanged. -/
theorem errorPolicy_overload_unchanged (ttl delay fuel now : Nat)
    (rb : Ringbuffer α) (batch : List α)
    (hfresh : ∀ p ∈ rb.items, now < p.1)
    (hfull : rb.hasSpace batch.length = false) :
    publishAllEnforced .ERROR ttl delay fuel now rb batch
      = (.error (.overload batch.length), now, rb) := by
  simp only [publishAllEnforced, evictExpired_of_fresh now rb hfresh, hfull]
  simp

/-- C4 witness: with capacity 10, after a full `batch1` a second `batch2`
fails with Overload(10) and the log still holds exactly `batch1`. -/
theorem errorPolicy_overload_unchanged_witness :
    publishAllEnforced .ERROR 1000 100 5 0 logFull batchTwo
        = (.error (.overload 10), 0, logFull)
      ∧ logFull.payloads = batchOne :=
  ⟨errorPolicy_overload_unchanged 1000 100 5 0 logFull batchTwo
      (by decide) (by decide),
    by decide⟩

/-- C5.  Under the DISCARD_NEWEST overload policy, an append issued when the
log has no free capacity appends nothing, resolves successfully without
error, and leaves the log's stored contents unchanged. -/
theorem discardNewest_drops_batch (ttl delay fuel now : Nat)
    (rb : Ringbuffer α) (batch : List α)
    (hfresh : ∀ p ∈ rb.items, now < p.1)
    (hfull : rb.hasSpace batch.length = false) :
    publishAllEnforced .DISCARD_NEWEST ttl delay fuel now rb batch
      = (.ok (), now, rb) := by
  simp only [publishAllEnforced, evictExpired_of_fresh now rb hfresh, hfull]
  simp

/-- C5 witness: with capacity 10, publishing `batch1` then `batch2` leaves
the log containing exactly `batch1`, tail item 10, stored count 10. -/
theorem discardNewest_drops_batch_witness :
    publishAllEnforced .DISCARD_NEWEST 1000 100 5 0 logFull batchTwo
        = (.ok (), 0, logFull)
      ∧ logFull.payloads = batchOne
      ∧ logFull.size = 10
      ∧ (logFull.readOne logFull.tailSequence).map Prod.snd = some 10 :=
  ⟨discardNewest_drops_batch 1000 100 5 0 logFull batchTwo
      (by decide) (by decide),
    by decide, by decide, by decide⟩

/-- C6.  Under the DISCARD_OLDEST overload policy an append always succeeds;
when the log has no free capacity it makes room by evicting exactly the
oldest entries and appends the whole batch in order. -/
theorem discardOldest_evicts_oldest (ttl delay fuel now : Nat)
    (rb : Ringbuffer α) (batch : List α) :
    (publishAllEnforced .DISCARD_OLDEST ttl delay fuel now rb batch).1 = .ok ()
      ∧ ((∀ p ∈ rb.items, now < p.1) → rb.hasSpace batch.length = false →
          publishAllEnforced .DISCARD_OLDEST ttl delay fuel now rb batch
            = (.ok (), now,
                ⟨rb.capacity, rb.head + (rb.items.length + batch.length - rb.capacity),
                  rb.items.drop (rb.items.length + batch.length - rb.capacity)
                    ++ batch.map (fun a => (now + ttl, a))⟩)) := by
  constructor
  · simp only [publishAllEnforced]
    by_cases h : (rb.evictExpired now).hasSpace batch.length = true
    · simp [h]
    · simp [Bool.not_eq_true] at h
      simp [h]
  · intro hfresh hfull
    simp only [publishAllEnforced, evictExpired_of_fresh now rb hfresh, hfull]
    simp [Ringbuffer.evictOldest, Ringbuffer.appendAllNow]

/-- C6 witness: with capacity 10, publishing `batch1` then `batch2` leaves
the log containing exactly `batch2`, tail item 20, stored count 10. -/
theorem discardOldest_evicts_oldest_witness :
    publishAllEnforced .DISCARD_OLDEST 1000 100 5 0 logFull batchTwo
        = (.ok (), 0, ⟨10, 10, batchTwo.map (fun a => (1000, a))⟩)
      ∧ (publishAllEnforced .DISCARD_OLDEST 1000 100 5 0 logFull batchTwo).2.2.payloads
          = batchTwo
      ∧ (publishAllEnforced .DISCARD_OLDEST 1000 100 5 0 logFull batchTwo).2.2.size = 10
      ∧ ((publishAllEnforced .DISCARD_OLDEST 1000 100 5 0 logFull batchTwo).2.2.readOne
            (publishAllEnforced .DISCARD_OLDEST 1000 100 5 0 logFull batchTwo).2.2.tailSequence).map
            Prod.snd = some 20 := by
  have h := (discardOldest_evicts_oldest 1000 100 5 0 logFull batchTwo).2
    (by decide) (by decide)
  refine ⟨?_, ?_, ?_, ?_⟩ <;> rw [h] <;> rfl

/-- Sequence-stamped view of a payload list whose first element sits at
sequence `c`. -/
def seqEntriesFrom (c : Nat) : List α → List (Nat × α)
  | [] => []
  | a :: as => (c, a) :: seqEntriesFrom (c + 1) as

/-- The retained entries of the log at or after sequence `c` (meaningful for
`c` at or past the head), stamped with their sequences. -/
def entriesFrom (rb : Ringbuffer α) (c : Nat) : List (Nat × α) :=
  seqEntriesFrom c (rb.payloads.drop (c - rb.head))

/-- Modelled from the spec: the outcome of a bounded range read
`readRange(cursor, minCount=1, maxCount=batchSize)` — either the retained
entries from the cursor on (possibly none yet), or a stale-sequence signal
carrying the current head when the cursor is below it. -/
inductive ReadResult (α : Type) where
  | items (xs : List (Nat × α))
  | staleSequence (head : Nat)

/-- Modelled from the spec: the log collaborator's range read. -/
def readBatch (rb : Ringbuffer α) (cursor maxCount : Nat) : ReadResult α :=
  if cursor < rb.head then .staleSequence rb.head
  else .items ((entriesFrom rb cursor).take maxCount)

/-- Modelled from the spec: Listener Runner states,
`INITIALIZING → RUNNING → {CANCELLED, TERMINATED_ERROR}`, the last two
absorbing. -/
inductive RunnerState where
  | INITIALIZING
  | RUNNING
  | CANCELLED
  | TERMINATED_ERROR
deriving DecidableEq

/-- The two absorbing states. -/
def RunnerState.isTerminal : RunnerState → Bool
  | .CANCELLED => true
  | .TERMINATED_ERROR => true
  | _ => false

/-- Modelled from the spec: a Listener Registration and its Runner — private
read cursor, loss-tolerance flag, state, cooperative cancellation flag, the
sequence-stamped messages dispatched to the callback so far (in callback
order), the number of terminal errors surfaced, and the number of reads
issued. -/
structure Runner (α : Type) where
  cursor : Nat
  lossTolerant : Bool
  state : RunnerState
  cancelRequested : Bool
  delivered : List (Nat × α)
  errorsSurfaced : Nat
  readsIssued : Nat
deriving DecidableEq

/-- Modelled from the spec: `addListener` creates a registration whose
Runner starts at cursor `tailSequence() + 1` (only future messages). -/
def newRunner (rb : Ringbuffer α) (lossTolerant : Bool) : Runner α :=
  ⟨rb.nextSequence, lossTolerant, .INITIALIZING, false, [], 0, 0⟩

/-- Modelled from the spec: `removeListener(id)` marks the registration
cancelled; the Runner's loop observes the flag at its next iteration
boundary. -/
def requestCancel (r : Runner α) : Runner α := { r with cancelRequested := true }

/-- Modelled from the spec: one iteration of the Runner loop (§4.3).  In a
terminal state nothing happens; otherwise cancellation is observed first (no
new read is issued); otherwise a bounded range read is issued: returned
envelopes are dispatched in increasing sequence order and the cursor advances
past them, while a stale-sequence signal makes a loss-tolerant Runner jump
its cursor to the current head and continue, and a non-tolerant Runner
transition to TERMINATED_ERROR surfacing one terminal error. -/
def runnerStep (batchSize : Nat) (rb : Ringbuffer α) (r : Runner α) : Runner α :=
  if r.state.isTerminal then r
  else if r.cancelRequested then { r with state := .CANCELLED }
  else
    match readBatch rb r.cursor batchSize with
    | .items xs =>
      { r with state := .RUNNING,
               readsIssued := r.readsIssued + 1,
               delivered := r.delivered ++ xs,
               cursor := r.cursor + xs.length }
    | .staleSequence h =>
      if r.lossTolerant then
        { r with state := .RUNNING, readsIssued := r.readsIssued + 1, cursor := h }
      else
        { r with state := .TERMINATED_ERROR,
                 readsIssued := r.readsIssued + 1,
                 errorsSurfaced := r.errorsSurfaced + 1 }

/-- `n` iterations of the Runner loop against a fixed log. -/
def runnerRun (batchSize : Nat) (rb : Ringbuffer α) : Nat → Runner α → Runner α
  | 0, r => r
  | n + 1, r => runnerRun batchSize rb n (runnerStep batchSize rb r)

theorem seqEntriesFrom_map_snd (c : Nat) (xs : List α) :
    (seqEntriesFrom c xs).map Prod.snd = xs := by
  induction xs generalizing c with
  | nil => rfl
  | cons a as ih => simp [seqEntriesFrom, ih]

theorem seqEntriesFrom_map_fst (c : Nat) (xs : List α) :
    (seqEntriesFrom c xs).map Prod.fst = List.range' c xs.length := by
  induction xs generalizing c with
  | nil => rfl
  | cons a as ih => simp [seqEntriesFrom, ih, List.range']

theorem seqEntriesFrom_length (c : Nat) (xs : List α) :
    (seqEntriesFrom c xs).length = xs.length := by
  induction xs generalizing c with
  | nil => rfl
  | cons a as ih => simp [seqEntriesFrom, ih]

theorem seqEntriesFrom_take (t c : Nat) (xs : List α) :
    (seqEntriesFrom c xs).take t = seqEntriesFrom c (xs.take t) := by
  induction t generalizing c xs with
  | zero => simp [seqEntriesFrom]
  | succ t ih =>
    cases xs with
    | nil => rfl
    | cons a as => simp [seqEntriesFrom, List.take_succ_cons, ih]

theorem seqEntriesFrom_drop (t c : Nat) (xs : List α) :
    (seqEntriesFrom c xs).drop t = seqEntriesFrom (c + t) (xs.drop t) := by
  induction t generalizing c xs with
  | zero => simp
  | succ t ih =>
    cases xs with
    | nil => rfl
    | cons a as =>
      rw [show seqEntriesFrom c (a :: as) = (c, a) :: seqEntriesFrom (c + 1) as from rfl]
      rw [List.drop_succ_cons, List.drop_succ_cons, ih]
      congr 1
      omega

theorem entriesFrom_add (rb : Ringbuffer α) (c t : Nat) (hc : rb.head ≤ c) :
    entriesFrom rb (c + t) = (entriesFrom rb c).drop t := by
  rw [entriesFrom, entriesFrom, seqEntriesFrom_drop, List.drop_drop]
  congr 2
  omega

theorem take_length_append_drop (b : Nat) (l : List β) :
    l.take b ++ l.drop ((l.take b).length) = l := by
  rw [List.length_take]
  rcases Nat.le_total b l.length with h | h
  · rw [Nat.min_eq_left h, List.take_append_drop]
  · rw [Nat.min_eq_right h, List.drop_length, List.append_nil, List.take_of_length_le h]

/-- One loop iteration of a live, uncancelled Runner whose cursor is at or
past the head: it reads and dispatches up to `batchSize` retained entries in
sequence order and advances the cursor past them. -/
theorem runnerStep_items (batchSize : Nat) (rb : Ringbuffer α) (r : Runner α)
    (hterm : r.state.isTerminal = false) (hcancel : r.cancelRequested = false)
    (hcur : rb.head ≤ r.cursor) :
    runnerStep batchSize rb r =
      { r with state := .RUNNING,
               readsIssued := r.readsIssued + 1,
               delivered := r.delivered ++ (entriesFrom rb r.cursor).take batchSize,
               cursor := r.cursor + ((entriesFrom rb r.cursor).take batchSize).length } := by
  simp [runnerStep, hterm, hcancel, readBatch, Nat.not_lt.mpr hcur]

/-- A Runner in a terminal state never moves again: the loop issues no reads,
dispatches nothing and surfaces nothing, whatever gets published. -/
theorem runnerRun_terminal (batchSize : Nat) :
    ∀ (m : Nat) (rb : Ringbuffer α) (r : Runner α),
      r.state.isTerminal = true → runnerRun batchSize rb m r = r := by
  intro m
  induction m with
  | zero => intro rb r _; rfl
  | succ m ih =>
    intro rb r hterm
    have hstep : runnerStep batchSize rb r = r := by simp [runnerStep, hterm]
    rw [runnerRun, hstep]
    exact ih rb r hterm

/-- A live, uncancelled Runner whose cursor is at or past the head consumes,
within enough loop iterations, every retained entry from its cursor on,
dispatching them in sequence order exactly once, and stays live. -/
theorem runnerRun_consumes (batchSize : Nat) (rb : Ringbuffer α) (hb : 1 ≤ batchSize) :
    ∀ (n : Nat) (r : Runner α),
      r.state.isTerminal = false →
      r.cancelRequested = false →
      rb.head ≤ r.cursor →
      (entriesFrom rb r.cursor).length ≤ n →
      (runnerRun batchSize rb n r).delivered = r.delivered ++ entriesFrom rb r.cursor
      ∧ (runnerRun batchSize rb n r).cursor = r.cursor + (entriesFrom rb r.cursor).length
      ∧ (runnerRun batchSize rb n r).state.isTerminal = false
      ∧ (runnerRun batchSize rb n r).cancelRequested = false := by
  intro n
  induction n with
  | zero =>
    intro r hterm hcancel hcur hlen
    have hnil : entriesFrom rb r.cursor = [] :=
      List.length_eq_zero.mp (Nat.le_zero.mp hlen)
    simp [runnerRun, hnil, hterm, hcancel]
  | succ n ih =>
    intro r hterm hcancel hcur hlen
    have hstep := runnerStep_items batchSize rb r hterm hcancel hcur
    have htake :
        ((entriesFrom rb r.cursor).take batchSize).length
          = min batchSize (entriesFrom rb r.cursor).length := List.length_take ..
    have hdrop :
        entriesFrom rb (r.cursor + ((entriesFrom rb r.cursor).take batchSize).length)
          = (entriesFrom rb r.cursor).drop ((entriesFrom rb r.cursor).take batchSize).length :=
      entriesFrom_add rb r.cursor _ hcur
    have hlen2 :
        ((entriesFrom rb r.cursor).drop
            ((entriesFrom rb r.cursor).take batchSize).length).length ≤ n := by
      rw [List.length_drop, htake]
      omega
    have ed : (runnerStep batchSize rb r).delivered
        = r.delivered ++ (entriesFrom rb r.cursor).take batchSize := by rw [hstep]
    have ec : (runnerStep batchSize rb r).cursor
        = r.cursor + ((entriesFrom rb r.cursor).take batchSize).length := by rw [hstep]
    have es : (runnerStep batchSize rb r).state.isTerminal = false := by
      rw [hstep]
      rfl
    have ecan : (runnerStep batchSize rb r).cancelRequested = false := by
      rw [hstep]
      exact hcancel
    have ecur : rb.head ≤ (runnerStep batchSize rb r).cursor := by
      rw [ec]
      omega
    have elen : (entriesFrom rb (runnerStep batchSize rb r).cursor).length ≤ n := by
      rw [ec, hdrop]
      exact hlen2
    obtain ⟨h1, h2, h3, h4⟩ := ih (runnerStep batchSize rb r) es ecan ecur elen
    refine ⟨?_, ?_, h3, h4⟩
    · show (runnerRun batchSize rb n (runnerStep batchSize rb r)).delivered = _
      rw [h1, ed, ec, hdrop, List.append_assoc, take_length_append_drop]
    · show (runnerRun batchSize rb n (runnerStep batchSize rb r)).cursor = _
      rw [h2, ec, hdrop, List.length_drop, htake]
      omega

/-- C1.  For a Runner registered before a sequence of publishes `P` begins
(cursor at `tailSequence() + 1`), in the absence of eviction and
cancellation, enough loop iterations deliver to its callback exactly the
messages of `P`, each exactly once, in publish order, stamped with the
consecutive log sequences starting at the registration point — no gaps, in
non-decreasing sequence order. -/
theorem runner_delivers_publishes_in_order (rb : Ringbuffer α) (P : List α)
    (now ttl batchSize : Nat) (lossTol : Bool)
    (hb : 1 ≤ batchSize) (hspace : rb.hasSpace P.length = true) :
    ∃ n,
      (runnerRun batchSize (rb.appendAllNow now ttl P) n (newRunner rb lossTol)).delivered
          = seqEntriesFrom rb.nextSequence P
      ∧ ((runnerRun batchSize (rb.appendAllNow now ttl P) n
            (newRunner rb lossTol)).delivered).map Prod.snd = P
      ∧ ((runnerRun batchSize (rb.appendAllNow now ttl P) n
            (newRunner rb lossTol)).delivered).map Prod.fst
          = List.range' rb.nextSequence P.length := by
  refine ⟨P.length, ?_⟩
  have hkey : entriesFrom (rb.appendAllNow now ttl P) rb.nextSequence
      = seqEntriesFrom rb.nextSequence P := by
    rw [entriesFrom]
    have h2 : (rb.appendAllNow now ttl P).payloads.drop
        (rb.nextSequence - (rb.appendAllNow now ttl P).head) = P := by
      rw [appendAllNow_payloads]
      have h3 : rb.nextSequence - (rb.appendAllNow now ttl P).head = rb.payloads.length := by
        show rb.head + rb.items.length - rb.head = rb.payloads.length
        rw [Ringbuffer.payloads, List.length_map]
        omega
      rw [h3, List.drop_left]
    rw [h2]
  have es : (newRunner rb lossTol).state.isTerminal = false := rfl
  have ecan : (newRunner rb lossTol).cancelRequested = false := rfl
  have ecur : (rb.appendAllNow now ttl P).head ≤ (newRunner rb lossTol).cursor := by
    show rb.head ≤ rb.head + rb.items.length
    omega
  have elen : (entriesFrom (rb.appendAllNow now ttl P) (newRunner rb lossTol).cursor).length
      ≤ P.length := by
    show (entriesFrom (rb.appendAllNow now ttl P) rb.nextSequence).length ≤ P.length
    rw [hkey, seqEntriesFrom_length]
  obtain ⟨h1, -, -, -⟩ :=
    runnerRun_consumes batchSize (rb.appendAllNow now ttl P) hb P.length
      (newRunner rb lossTol) es ecan ecur elen
  have hdel : (runnerRun batchSize (rb.appendAllNow now ttl P) P.length
      (newRunner rb lossTol)).delivered = seqEntriesFrom rb.nextSequence P := by
    rw [h1]
    show [] ++ entriesFrom (rb.appendAllNow now ttl P) rb.nextSequence = _
    rw [List.nil_append, hkey]
  exact ⟨hdel, by rw [hdel, seqEntriesFrom_map_snd], by rw [hdel, seqEntriesFrom_map_fst]⟩

/-- An empty capacity-100 log. -/
def emptyLog : Ringbuffer Nat := ⟨100, 0, []⟩

/-- C1 witness: a listener registered on an empty log before `[7, 8, 9]` is
published observes exactly `[7, 8, 9]` in order at consecutive sequences
0, 1, 2. -/
theorem runner_delivers_publishes_in_order_witness :
    ∃ n,
      (runnerRun 1 (emptyLog.appendAllNow 0 50 [7, 8, 9]) n
          (newRunner emptyLog true)).delivered
          = seqEntriesFrom emptyLog.nextSequence [7, 8, 9]
      ∧ ((runnerRun 1 (emptyLog.appendAllNow 0 50 [7, 8, 9]) n
            (newRunner emptyLog true)).delivered).map Prod.snd = [7, 8, 9]
      ∧ ((runnerRun 1 (emptyLog.appendAllNow 0 50 [7, 8, 9]) n
            (newRunner emptyLog true)).delivered).map Prod.fst
          = List.range' emptyLog.nextSequence 3 :=
  runner_delivers_publishes_in_order emptyLog [7, 8, 9] 0 50 1 true
    (by decide) (by decide)

/-- C2.  When a Runner's cursor is below the log head (stale sequence): a
loss-tolerant Runner jumps its cursor to the current head, stays RUNNING,
and within enough iterations delivers every retained entry (so it eventually
delivers the latest item and never stalls permanently); a non-loss-tolerant
Runner transitions to the absorbing TERMINATED_ERROR state, surfaces exactly
one terminal error, and issues no further reads whatever gets published
afterwards. -/
theorem staleSequence_recovery (batchSize : Nat) (rb : Ringbuffer α) (r : Runner α)
    (hb : 1 ≤ batchSize)
    (hstale : r.cursor < rb.head)
    (hterm : r.state.isTerminal = false)
    (hcancel : r.cancelRequested = false) :
    (r.lossTolerant = true →
      runnerStep batchSize rb r
          = { r with state := .RUNNING, readsIssued := r.readsIssued + 1,
                     cursor := rb.head }
        ∧ ∃ n, (runnerRun batchSize rb n (runnerStep batchSize rb r)).delivered
                  = r.delivered ++ entriesFrom rb rb.head
            ∧ (runnerRun batchSize rb n (runnerStep batchSize rb r)).state.isTerminal
                  = false)
    ∧ (r.lossTolerant = false →
      runnerStep batchSize rb r
          = { r with state := .TERMINATED_ERROR, readsIssued := r.readsIssued + 1,
                     errorsSurfaced := r.errorsSurfaced + 1 }
        ∧ ∀ (m : Nat) (rb2 : Ringbuffer α),
            runnerRun batchSize rb2 m (runnerStep batchSize rb r)
              = runnerStep batchSize rb r) := by
  have hread : readBatch rb r.cursor batchSize = .staleSequence rb.head := by
    simp [readBatch, hstale]
  constructor
  · intro htol
    have hstep : runnerStep batchSize rb r
        = { r with state := .RUNNING, readsIssued := r.readsIssued + 1,
                   cursor := rb.head } := by
      simp [runnerStep, hterm, hcancel, hread, htol]
    refine ⟨hstep, ?_⟩
    have es : (runnerStep batchSize rb r).state.isTerminal = false := by
      rw [hstep]
      rfl
    have ecan : (runnerStep batchSize rb r).cancelRequested = false := by
      rw [hstep]
      exact hcancel
    have ec : (runnerStep batchSize rb r).cursor = rb.head := by rw [hstep]
    have ecur : rb.head ≤ (runnerStep batchSize rb r).cursor := by rw [ec]
    have elen : (entriesFrom rb (runnerStep batchSize rb r).cursor).length
        ≤ (entriesFrom rb rb.head).length := by rw [ec]
    obtain ⟨h1, -, h3, -⟩ :=
      runnerRun_consumes batchSize rb hb (entriesFrom rb rb.head).length
        (runnerStep batchSize rb r) es ecan ecur elen
    refine ⟨(entriesFrom rb rb.head).length, ?_, h3⟩
    rw [h1, ec]
    have ed : (runnerStep batchSize rb r).delivered = r.delivered := by rw [hstep]
    rw [ed]
  · intro htol
    have hstep : runnerStep batchSize rb r
        = { r with state := .TERMINATED_ERROR, readsIssued := r.readsIssued + 1,
                   errorsSurfaced := r.errorsSurfaced + 1 } := by
      simp [runnerStep, hterm, hcancel, hread, htol]
    refine ⟨hstep, ?_⟩
    intro m rb2
    apply runnerRun_terminal
    rw [hstep]
    rfl

/-- A log whose retention (capacity 10) was smaller than a 20-item burst:
items 1..10 were already evicted, items 11..20 are retained at sequences
10..19. -/
def logBurst : Ringbuffer Nat := ⟨10, 10, batchTwo.map (fun a => (9999, a))⟩

/-- A loss-tolerant Runner that fell behind the head of `logBurst`. -/
def runnerTol : Runner Nat := ⟨0, true, .RUNNING, false, [], 0, 0⟩

/-- A non-loss-tolerant Runner that fell behind the head of `logBurst`. -/
def runnerNonTol : Runner Nat := ⟨0, false, .RUNNING, false, [], 0, 0⟩

/-- C2 witness: against the 20-item-burst log, the loss-tolerant Runner
eventually delivers item 20; the non-tolerant Runner surfaces exactly one
terminal error, ends in TERMINATED_ERROR, and never moves again. -/
theorem staleSequence_recovery_witness :
    (∃ n, 20 ∈ ((runnerRun 1 logBurst n (runnerStep 1 logBurst runnerTol)).delivered).map
        Prod.snd)
    ∧ (runnerStep 1 logBurst runnerNonTol).errorsSurfaced = 1
    ∧ (runnerStep 1 logBurst runnerNonTol).state = .TERMINATED_ERROR
    ∧ runnerRun 1 logBurst 5 (runnerStep 1 logBurst runnerNonTol)
        = runnerStep 1 logBurst runnerNonTol := by
  refine ⟨?_, ?_, ?_, ?_⟩
  · obtain ⟨-, n, hdel, -⟩ :=
      (staleSequence_recovery 1 logBurst runnerTol (by decide) (by decide)
        (by decide) (by decide)).1 rfl
    refine ⟨n, ?_⟩
    rw [hdel]
    decide
  · have h := (staleSequence_recovery 1 logBurst runnerNonTol (by decide) (by decide)
      (by decide) (by decide)).2 rfl
    rw [h.1]
    rfl
  · have h := (staleSequence_recovery 1 logBurst runnerNonTol (by decide) (by decide)
      (by decide) (by decide)).2 rfl
    rw [h.1]
  · have h := (staleSequence_recovery 1 logBurst runnerNonTol (by decide) (by decide)
      (by decide) (by decide)).2 rfl
    exact h.2 5 logBurst

/-- C8.  Once `removeListener` has marked a registration cancelled, the
Runner observes the flag at its next loop-iteration boundary: that iteration
issues no read, dispatches nothing, and moves to the absorbing CANCELLED
state; from then on, no further callback for this registration ever occurs,
regardless of subsequent publishes. -/
theorem removeListener_no_further_callbacks (batchSize : Nat) (rb : Ringbuffer α)
    (r : Runner α) (hterm : r.state.isTerminal = false) :
    runnerStep batchSize rb (requestCancel r)
        = { r with cancelRequested := true, state := .CANCELLED }
      ∧ ∀ (m : Nat) (rb2 : Ringbuffer α),
          runnerRun batchSize rb2 m (runnerStep batchSize rb (requestCancel r))
            = runnerStep batchSize rb (requestCancel r) := by
  have hstep : runnerStep batchSize rb (requestCancel r)
      = { r with cancelRequested := true, state := .CANCELLED } := by
    simp [runnerStep, requestCancel, hterm]
  refine ⟨hstep, ?_⟩
  intro m rb2
  apply runnerRun_terminal
  rw [hstep]
  rfl

/-- A live Runner that has already delivered one message and issued three
reads. -/
def runnerLive : Runner Nat := ⟨5, true, .RUNNING, false, [(0, 42)], 0, 3⟩

/-- C8 witness: cancelling `runnerLive` makes the very next iteration move
to CANCELLED without reading or delivering anything, and four further
iterations against a different (freshly published) log change nothing. -/
theorem removeListener_no_further_callbacks_witness :
    runnerStep 1 logBurst (requestCancel runnerLive)
        = { runnerLive with cancelRequested := true, state := .CANCELLED }
      ∧ runnerRun 1 logFull 4 (runnerStep 1 logBurst (requestCancel runnerLive))
          = runnerStep 1 logBurst (requestCancel runnerLive) := by
  have h := removeListener_no_further_callbacks 1 logBurst runnerLive (by decide)
  exact ⟨h.1, h.2 4 logFull⟩

/-- Modelled from the spec: `assertNotNull` (defined in `util/Util.ts`,
which is not under `src/`) — rejects an absent (null/undefined) value; per
spec §7 the publish path surfaces this as a synchronous InvalidArgument
failure with nothing written. -/
def assertNotNull (x : Option α) : Except TopicError α :=
  match x with
  | none => .error .invalidArgument
  | some a => .ok a

/-- The invocation a successful publish call sends to the cluster; an
`Except.error` outcome means no invocation is made and nothing is written. -/
inductive InvokeAction (α : Type) where
  | publishInvoke (msg : α)
  | publishAllInvoke (msgs : List α)
deriving DecidableEq

/-- From `TopicProxy.publishAll`'s per-item loop in `TopicProxy.ts`:
`for (const message of messages) { assertNotNull(message); }` — every
message must be present, in order. -/
def assertAllNotNull : List (Option α) → Except TopicError (List α)
  | [] => .ok []
  | x :: xs => do
    let v ← assertNotNull x
    let vs ← assertAllNotNull xs
    return v :: vs

/-- From `TopicProxy.publish` in `TopicProxy.ts`: assert the message is
present, then serialize it and invoke the publish codec. -/
def TopicProxy.publish (message : Option α) : Except TopicError (InvokeAction α) := do
  let m ← assertNotNull message
  return .publishInvoke m

/-- From `TopicProxy.publishAll` in `TopicProxy.ts`: assert the list is
present, assert every message is present, then serialize the list and invoke
the publish-all codec. -/
def TopicProxy.publishAll (messages : Option (List (Option α))) :
    Except TopicError (InvokeAction α) := do
  let ms ← assertNotNull messages
  let checked ← assertAllNotNull ms
  return .publishAllInvoke checked

theorem assertAllNotNull_of_mem_none (ms : List (Option α)) (h : none ∈ ms) :
    assertAllNotNull ms = (.error .invalidArgument : Except TopicError (List α)) := by
  induction ms with
  | nil => cases h
  | cons a t ih =>
    cases a with
    | none => rfl
    | some v =>
      have ht : none ∈ t := by
        rcases List.mem_cons.mp h with h1 | h1
        · cases h1
        · exact h1
      show (assertAllNotNull t).bind _ = _
      rw [ih ht]
      rfl

/-- C9.  A `publish` or `publishAll` call with an absent (null/undefined)
message — a `none` list, or a list containing a `none` element — fails
synchronously with an InvalidArgument error: no invocation is produced, so
nothing is written to the log. -/
theorem publish_absent_message_invalidArgument (msgs : List (Option α)) :
    TopicProxy.publish (none : Option α) = .error .invalidArgument
    ∧ TopicProxy.publishAll (none : Option (List (Option α))) = .error .invalidArgument
    ∧ (none ∈ msgs → TopicProxy.publishAll (some msgs) = .error .invalidArgument) := by
  refine ⟨rfl, rfl, ?_⟩
  intro h
  show (assertAllNotNull msgs).bind _ = _
  rw [assertAllNotNull_of_mem_none msgs h]
  rfl

/-- C9 witness: publishing a null message, and publishing a batch whose
second element is null, both fail with InvalidArgument and produce no
invocation. -/
theorem publish_absent_message_invalidArgument_witness :
    TopicProxy.publish (none : Option Nat) = .error .invalidArgument
    ∧ TopicProxy.publishAll (some [some 1, none, some 3] : Option (List (Option Nat)))
        = .error .invalidArgument :=
  ⟨(publish_absent_message_invalidArgument ([some 1, none, some 3] : List (Option Nat))).1,
    (publish_absent_message_invalidArgument ([some 1, none, some 3] : List (Option Nat))).2.2
      (by decide)⟩

/-- From `core`: an error with a message (`HazelcastError`). -/
structure HazelcastError where
  message : String
deriving DecidableEq

/-- From `TopicProxy.addMessageListener` in `TopicProxy.ts`: unconditionally
throws a HazelcastError; the registration registry (modelled as the list of
live registration ids) is never touched, so no new id is ever produced. -/
def TopicProxy.addMessageListener (registry : List String) (listener : α) :
    Except HazelcastError (String × List String) :=
  .error ⟨"This method is not supported for Topic. Use addListener instead."⟩

/-- From `TopicProxy.removeMessageListener` in `TopicProxy.ts`:
unconditionally throws a HazelcastError; the registry is never touched and
no deregistration outcome is ever produced. -/
def TopicProxy.removeMessageListener (registry : List String) (listenerId : String) :
    Except HazelcastError (Bool × List String) :=
  .error ⟨"This method is not supported for Topic. Use removeListener instead."⟩

/-- C10.  For every input, `addMessageListener` and `removeMessageListener`
on the TopicProxy fail with a HazelcastError stating the method is not
supported for Topic and directing the caller to `addListener` /
`removeListener`; neither ever registers or deregisters anything (no updated
registry or registration id is ever returned). -/
theorem messageListener_methods_unsupported (registry : List String)
    (listener : α) (listenerId : String) :
    TopicProxy.addMessageListener registry listener
        = .error ⟨"This method is not supported for Topic. Use addListener instead."⟩
    ∧ TopicProxy.removeMessageListener registry listenerId
        = .error ⟨"This method is not supported for Topic. Use removeListener instead."⟩ :=
  ⟨rfl, rfl⟩

end ReliableTopic
